import Mathlib

/-!
Verification of the AgentFlow Tool Connection & Caching Layer.

Shallow embedding, in Lean 4, of the cache-key derivation, tool-result
cache, cache manager, tool-refresh loop and LLM tool-call parser found in
`core/mcp.go` of the `agentflow` repository, together with theorems that
settle the specification claims about those functions.

Modelling conventions:
- Go `map[K]V` values are represented as association lists
  `List (K × V)`; a list that represents a reachable Go map has no
  duplicate keys (`NodupKeys`).  Writing through `mapInsert` replaces an
  existing binding in place, like a Go map assignment; `delete` is
  `mapErase`.
- Go `time.Time` instants and `time.Duration` values are both modelled
  as `Int` nanosecond counts; `time.Since(t)` at instant `now` is
  `now - t`.
- Go `int`, `int64` are modelled as `Int` (no claim exercises overflow).
- Go `float64` is modelled as `ℚ`; the only float values the claims
  exercise (0 and small ratios such as 1/2) are exactly representable in
  both, so the model is exact on the exercised domain.
- `crypto/sha256` and `encoding/hex` are Go standard-library functions;
  they are reimplemented here bit-for-bit (FIPS 180-4) so that digests
  evaluate to the very strings the Go code produces.
-/

namespace AgentFlow

/-! ## Go map model: association lists -/

/-- Lookup in a Go map modelled as an association list (first binding wins;
reachable Go maps never hold duplicate keys). -/
def mapLookup {α : Type} (k : String) : List (String × α) → Option α
  | [] => none
  | (k', v) :: rest => if k' = k then some v else mapLookup k rest

/-- Go map assignment `m[k] = v`: replace the binding in place if the key is
present, otherwise append a new binding. -/
def mapInsert {α : Type} (k : String) (v : α) : List (String × α) → List (String × α)
  | [] => [(k, v)]
  | (k', v') :: rest => if k' = k then (k, v) :: rest else (k', v') :: mapInsert k v rest

/-- Go `delete(m, k)`. -/
def mapErase {α : Type} (k : String) : List (String × α) → List (String × α)
  | [] => []
  | p :: rest => if p.1 = k then mapErase k rest else p :: mapErase k rest

/-- The keys of a Go map value. -/
def mapKeys {α : Type} (l : List (String × α)) : List String :=
  l.map Prod.fst

/-- An association list represents a Go map state iff its keys are distinct. -/
def NodupKeys {α : Type} (l : List (String × α)) : Prop :=
  (mapKeys l).Nodup

instance {α : Type} (l : List (String × α)) : Decidable (NodupKeys l) := by
  unfold NodupKeys; infer_instance

/-! ## Go string helpers used by the embedded code -/

/-- Whitespace predicate of Go `unicode.IsSpace` (the character classes Go
trims in `strings.TrimSpace`). -/
def goIsSpace (c : Char) : Bool :=
  c = ' ' || c = '\t' || c = '\n' || (c = Char.ofNat 11) || (c = Char.ofNat 12) ||
  c = '\r' || c = Char.ofNat 0x85 || c = Char.ofNat 0xA0

/-- Drop leading characters satisfying `p`. -/
def dropWhileChar (p : Char → Bool) : List Char → List Char
  | [] => []
  | c :: rest => if p c then dropWhileChar p rest else c :: rest

/-- Go `strings.TrimLeft`/`strings.TrimRight` composed: trim characters
satisfying `p` from both ends of a character list. -/
def trimWhile (p : Char → Bool) (l : List Char) : List Char :=
  (dropWhileChar p (dropWhileChar p l).reverse).reverse

/-- Go `strings.TrimSpace`. -/
def goTrimSpace (s : String) : String :=
  String.mk (trimWhile goIsSpace s.data)

/-- ASCII lower-casing, the fragment of Go `strings.ToLower` exercised by
every claim (no claim involves non-ASCII case mappings). -/
def goToLowerChar (c : Char) : Char :=
  if 'A' ≤ c ∧ c ≤ 'Z' then Char.ofNat (c.toNat + 32) else c

/-- Go `strings.ToLower` on the exercised (ASCII) domain. -/
def goToLower (s : String) : String :=
  String.mk (s.data.map goToLowerChar)

/-- UTF-8 encoding of one character, as byte values (Go `[]byte(string)`). -/
def utf8Bytes (c : Char) : List Nat :=
  let n := c.toNat
  if n < 0x80 then [n]
  else if n < 0x800 then [0xC0 ||| (n >>> 6), 0x80 ||| (n &&& 0x3F)]
  else if n < 0x10000 then
    [0xE0 ||| (n >>> 12), 0x80 ||| ((n >>> 6) &&& 0x3F), 0x80 ||| (n &&& 0x3F)]
  else
    [0xF0 ||| (n >>> 18), 0x80 ||| ((n >>> 12) &&& 0x3F),
     0x80 ||| ((n >>> 6) &&& 0x3F), 0x80 ||| (n &&& 0x3F)]

/-- Go `[]byte(s)`: the UTF-8 bytes of a string. -/
def strBytes (s : String) : List Nat :=
  s.data.flatMap utf8Bytes

/-- Insertion of a string into a sorted list, by Go's byte-order comparison
(for valid UTF-8 this coincides with Lean's code-point order on `String`). -/
def insertSorted (x : String) : List String → List String
  | [] => [x]
  | y :: rest => if x ≤ y then x :: y :: rest else y :: insertSorted x rest

/-- Go `sort.Strings`: ascending lexicographic sort. -/
def sortStrings : List String → List String
  | [] => []
  | x :: rest => insertSorted x (sortStrings rest)

/-! ## SHA-256 (Go `crypto/sha256`), FIPS 180-4, executable -/

/-- Rotate right within 32 bits. -/
def rotr (n x : Nat) : Nat :=
  ((x >>> n) ||| (x <<< (32 - n))) &&& 0xFFFFFFFF

/-- SHA-256 Σ₀. -/
def bsig0 (x : Nat) : Nat := rotr 2 x ^^^ rotr 13 x ^^^ rotr 22 x

/-- SHA-256 Σ₁. -/
def bsig1 (x : Nat) : Nat := rotr 6 x ^^^ rotr 11 x ^^^ rotr 25 x

/-- SHA-256 σ₀. -/
def ssig0 (x : Nat) : Nat := rotr 7 x ^^^ rotr 18 x ^^^ (x >>> 3)

/-- SHA-256 σ₁. -/
def ssig1 (x : Nat) : Nat := rotr 17 x ^^^ rotr 19 x ^^^ (x >>> 10)

/-- SHA-256 Ch. -/
def chFn (x y z : Nat) : Nat := (x &&& y) ^^^ ((x ^^^ 0xFFFFFFFF) &&& z)

/-- SHA-256 Maj. -/
def majFn (x y z : Nat) : Nat := (x &&& y) ^^^ (x &&& z) ^^^ (y &&& z)

/-- SHA-256 round constants (FIPS 180-4 sect. 4.2.2, in decimal). -/
def sha256K : List Nat :=
  [1116352408, 1899447441, 3049323471, 3921009573, 961987163, 1508970993,
   2453635748, 2870763221, 3624381080, 310598401, 607225278, 1426881987,
   1925078388, 2162078206, 2614888103, 3248222580, 3835390401, 4022224774,
   264347078, 604807628, 770255983, 1249150122, 1555081692, 1996064986,
   2554220882, 2821834349, 2952996808, 3210313671, 3336571891, 3584528711,
   113926993, 338241895, 666307205, 773529912, 1294757372, 1396182291,
   1695183700, 1986661051, 2177026350, 2456956037, 2730485921, 2820302411,
   3259730800, 3345764771, 3516065817, 3600352804, 4094571909, 275423344,
   430227734, 506948616, 659060556, 883997877, 958139571, 1322822218,
   1537002063, 1747873779, 1955562222, 2024104815, 2227730452, 2361852424,
   2428436474, 2756734187, 3204031479, 3329325298]

/-- SHA-256 initial hash value (FIPS 180-4 sect. 5.3.3, in decimal). -/
def sha256H0 : List Nat :=
  [1779033703, 3144134277, 1013904242, 2773480762,
   1359893119, 2600822924, 528734635, 1541459225]

/-- Big-endian bytes of `n`, `len` bytes wide. -/
def beBytes (len n : Nat) : List Nat :=
  (List.range len).map (fun i => (n >>> (8 * (len - 1 - i))) &&& 0xFF)

/-- SHA-256 message padding: append `0x80`, zeros to 56 mod 64, then the
bit length as a 64-bit big-endian integer. -/
def sha256Pad (msg : List Nat) : List Nat :=
  let L := msg.length
  let k := (119 - (L % 64)) % 64
  msg ++ [0x80] ++ List.replicate k 0 ++ beBytes 8 (L * 8)

/-- Group a byte list into big-endian 32-bit words. -/
def bytesToWords : List Nat → List Nat
  | a :: b :: c :: d :: rest =>
      (((a <<< 8 ||| b) <<< 8 ||| c) <<< 8 ||| d) :: bytesToWords rest
  | _ => []

/-- Extend 16 message words to the 64-entry SHA-256 message schedule.
`acc` holds the words produced so far, most recent first. -/
def sha256Extend : Nat → List Nat → List Nat
  | 0, acc => acc.reverse
  | n + 1, acc =>
      let w2 := acc.getD 1 0
      let w7 := acc.getD 6 0
      let w15 := acc.getD 14 0
      let w16 := acc.getD 15 0
      sha256Extend n (((ssig1 w2 + w7 + ssig0 w15 + w16) % 0x100000000) :: acc)

/-- The 64-word message schedule of one block. -/
def sha256Schedule (block : List Nat) : List Nat :=
  sha256Extend 48 block.reverse

/-- One SHA-256 compression round. -/
def sha256Round (st : List Nat) (kw : Nat × Nat) : List Nat :=
  match st with
  | [a, b, c, d, e, f, g, h] =>
      let t1 := (h + bsig1 e + chFn e f g + kw.1 + kw.2) % 0x100000000
      let t2 := (bsig0 a + majFn a b c) % 0x100000000
      [(t1 + t2) % 0x100000000, a, b, c, (d + t1) % 0x100000000, e, f, g]
  | other => other

/-- Compress one 64-byte block into the running hash state. -/
def sha256Compress (h : List Nat) (block : List Nat) : List Nat :=
  let w := sha256Schedule (bytesToWords block)
  let st := (sha256K.zip w).foldl sha256Round h
  (h.zip st).map (fun p => (p.1 + p.2) % 0x100000000)

/-- Compress successive 64-byte blocks into the hash state.  The first
argument is fuel that structurally bounds the recursion; every call site
passes at least the number of blocks, so it never runs out. -/
def sha256Blocks : Nat → List Nat → List Nat → List Nat
  | 0, h, _ => h
  | _ + 1, h, [] => h
  | fuel + 1, h, bytes => sha256Blocks fuel (sha256Compress h (bytes.take 64)) (bytes.drop 64)

/-- SHA-256 digest of a byte sequence, as 32 bytes. -/
def sha256Bytes (msg : List Nat) : List Nat :=
  let padded := sha256Pad msg
  let final := sha256Blocks padded.length sha256H0 padded
  final.flatMap (beBytes 4)

/-- One lowercase hex digit. -/
def hexDigit (n : Nat) : Char :=
  if n < 10 then Char.ofNat (48 + n) else Char.ofNat (87 + n)

/-- Go `hex.EncodeToString`: lowercase hex of a byte sequence. -/
def hexEncodeToString (bytes : List Nat) : String :=
  String.mk (bytes.flatMap (fun b => [hexDigit (b >>> 4), hexDigit (b &&& 0xF)]))

/-! ## Dynamic Go values (`interface\x7b\x7d`) -/

/-- Model of a Go `interface\x7b\x7d` value as produced by `encoding/json`
decoding and by the permissive tool-call parser: strings, booleans, null,
arrays, string-keyed maps.  JSON numbers are kept as their raw literal
text (Go decodes them to `float64`; no claim exercises numeric values, so
the raw spelling is retained rather than modelling float semantics). -/
inductive GoVal where
  | str : String → GoVal
  | num : String → GoVal
  | boolean : Bool → GoVal
  | null : GoVal
  | arr : List GoVal → GoVal
  | obj : List (String × GoVal) → GoVal

/-- Discriminator: is this dynamic value a string-keyed mapping? -/
def GoVal.isObj : GoVal → Bool
  | .obj _ => true
  | _ => false

/-- Go `fmt.Sprintf("%v", v)` on the primitive values the claims exercise
(strings print verbatim, booleans as `true`/`false`, `nil` as `<nil>`;
composite renderings are not exercised by any claim and are modelled by
their JSON-ish spelling only as a placeholder). -/
def sprintfV : GoVal → String
  | .str s => s
  | .num n => n
  | .boolean b => if b then "true" else "false"
  | .null => "<nil>"
  | .arr _ => "[...]"
  | .obj _ => "map[...]"

/-! ## Cache key derivation (`core/mcp.go`, section 10) -/

/-- Embedding of `MCPCacheKey` from core/mcp.go: a unique identifier for cached tool
results.  The `Hash` field is documented in the source as the "SHA256
hash of normalized args". -/
structure MCPCacheKey where
  ToolName : String
  ServerName : String
  Args : List (String × String)
  Hash : String
deriving DecidableEq

/-- Embedding of `normalizeArgs` from core/mcp.go: lower-case and trim each key, trim
each value, building a fresh map. -/
def normalizeArgs (args : List (String × String)) : List (String × String) :=
  args.foldl (fun normalized p =>
    mapInsert (goToLower (goTrimSpace p.1)) (goTrimSpace p.2) normalized) []

/-- Embedding of `generateArgHash` from core/mcp.go: sort the keys, hash the
concatenation of `key=value|` fragments with SHA-256 and keep the first
16 hex characters.  Note that it hashes exactly the argument map it is
given. -/
def generateArgHash (args : List (String × String)) : String :=
  let keys := sortStrings (mapKeys args)
  let bytes := keys.flatMap (fun k => strBytes (k ++ "=" ++ (mapLookup k args).getD "" ++ "|"))
  (hexEncodeToString (sha256Bytes bytes)).take 16

/-- Embedding of `GenerateCacheKey` from core/mcp.go: the `Args` field holds the
normalized arguments, while `Hash` is computed from the raw `args`
parameter (not from the normalized map). -/
def GenerateCacheKey (toolName serverName : String) (args : List (String × String)) :
    MCPCacheKey :=
  { ToolName := toolName
    ServerName := serverName
    Args := normalizeArgs args
    Hash := generateArgHash args }

/-- Embedding of `realMCPCache.keyToString` from core/mcp.go:
`fmt.Sprintf("%s:%s:%s", key.ToolName, key.ServerName, key.Hash)`. -/
def keyToString (key : MCPCacheKey) : String :=
  key.ToolName ++ ":" ++ key.ServerName ++ ":" ++ key.Hash

/-! ## Tool execution data model (`core/mcp.go`, section 3) -/

/-- Embedding of `MCPContent` from core/mcp.go (`Type'` stands for the Go field
`Type`, which is a reserved word in Lean). -/
structure MCPContent where
  Type' : String
  Text : String
  Data : String
  MimeType : String
  Metadata : List (String × GoVal)

/-- Embedding of `MCPToolResult` from core/mcp.go.  `Duration` is nanoseconds. -/
structure MCPToolResult where
  ToolName : String
  ServerName : String
  Success : Bool
  Content : List MCPContent
  Error : String
  Duration : Int

/-- Embedding of `MCPToolExecution` from core/mcp.go. -/
structure MCPToolExecution where
  ToolName : String
  Arguments : List (String × GoVal)
  ServerName : String

/-- Embedding of `MCPCachedResult` from core/mcp.go.  `Timestamp` is an instant in
nanoseconds, `TTL` a duration in nanoseconds. -/
structure MCPCachedResult where
  Key : MCPCacheKey
  Result : MCPToolResult
  Timestamp : Int
  TTL : Int
  AccessCount : Int
  Metadata : List (String × GoVal)

/-- Embedding of `MCPCacheStats` from core/mcp.go.  `HitRate` (a Go `float64`) is
modelled as a rational; the values exercised are exact in both. -/
structure MCPCacheStats where
  TotalKeys : Int
  HitCount : Int
  MissCount : Int
  HitRate : ℚ
  EvictionCount : Int
  TotalSize : Int
  AverageLatency : Int
  LastCleanup : Int

/-- Embedding of `MCPCacheConfig` from core/mcp.go (durations in nanoseconds). -/
structure MCPCacheConfig where
  Enabled : Bool
  DefaultTTL : Int
  MaxSize : Int
  MaxKeys : Int
  EvictionPolicy : String
  CleanupInterval : Int
  ToolTTLs : List (String × Int)
  Backend : String
  BackendConfig : List (String × String)

/-! ## `realMCPCache` (`core/mcp.go`, section 14)

The Go cache guards a `map[string]*MCPCachedResult` with a lock and
mutates it in place; the embedding passes the state explicitly, and every
time-dependent operation takes the current instant `now` (Go reads it
with `time.Now()` / `time.Since`). -/

/-- The mutable state of a `realMCPCache`: its `data` map. -/
structure realMCPCache where
  data : List (String × MCPCachedResult)

/-- Embedding of `newRealMCPCache` from core/mcp.go. -/
def newRealMCPCache : realMCPCache := { data := [] }

/-- Embedding of `realMCPCache.Get` from core/mcp.go: miss if absent; if present but
`time.Since(result.Timestamp) > result.TTL`, delete the entry and report
`cache expired`; otherwise return the entry unchanged. -/
def cacheGet (now : Int) (c : realMCPCache) (key : MCPCacheKey) :
    Except String MCPCachedResult × realMCPCache :=
  let keyStr := keyToString key
  match mapLookup keyStr c.data with
  | none => (.error "cache miss", c)
  | some result =>
      if now - result.Timestamp > result.TTL then
        (.error "cache expired", { data := mapErase keyStr c.data })
      else
        (.ok result, c)

/-- Embedding of `realMCPCache.Set` from core/mcp.go: always overwrite, with a fresh
`Timestamp` and zeroed `AccessCount` (Go zero value). -/
def cacheSet (now : Int) (c : realMCPCache) (key : MCPCacheKey)
    (result : MCPToolResult) (ttl : Int) : realMCPCache :=
  let cachedResult : MCPCachedResult :=
    { Key := key, Result := result, Timestamp := now, TTL := ttl
      AccessCount := 0, Metadata := [] }
  { data := mapInsert (keyToString key) cachedResult c.data }

/-- Embedding of `realMCPCache.Delete` from core/mcp.go. -/
def cacheDelete (c : realMCPCache) (key : MCPCacheKey) : realMCPCache :=
  { data := mapErase (keyToString key) c.data }

/-- Embedding of `realMCPCache.Clear` from core/mcp.go. -/
def cacheClear (_c : realMCPCache) : realMCPCache := { data := [] }

/-- Embedding of `realMCPCache.Size` from core/mcp.go. -/
def cacheSize (c : realMCPCache) : Int := c.data.length

/-- Embedding of `realMCPCache.Exists` from core/mcp.go: a bare map-membership test —
no expiry check and no mutation of any kind. -/
def cacheExists (c : realMCPCache) (key : MCPCacheKey) : Bool :=
  (mapLookup (keyToString key) c.data).isSome

/-- Embedding of `realMCPCache.Stats` from core/mcp.go: hit and miss counters are
hard-coded to zero ("Would need to track this in real implementation");
only `TotalKeys` reflects the state. -/
def cacheStats (c : realMCPCache) : MCPCacheStats :=
  { TotalKeys := c.data.length, HitCount := 0, MissCount := 0, HitRate := 0
    EvictionCount := 0, TotalSize := 0, AverageLatency := 0, LastCleanup := 0 }

/-- Embedding of `realMCPCache.Cleanup` from core/mcp.go: drop every entry whose age
exceeds its TTL. -/
def cacheCleanup (now : Int) (c : realMCPCache) : realMCPCache :=
  { data := c.data.filter (fun p => ¬ (now - p.2.Timestamp > p.2.TTL)) }

/-! ## `realMCPCacheManager` (`core/mcp.go`, section 14) -/

/-- The state of a `realMCPCacheManager`: its configuration and the
per-(tool, server) cache table. -/
structure realMCPCacheManager where
  config : MCPCacheConfig
  caches : List (String × realMCPCache)

/-- The composite pair key `fmt.Sprintf("%s:%s", toolName, serverName)`
used by `GetCache`. -/
def pairKey (toolName serverName : String) : String :=
  toolName ++ ":" ++ serverName

/-- Embedding of `realMCPCacheManager.GetCache` from core/mcp.go: lazily create the
per-pair cache. -/
def GetCache (cm : realMCPCacheManager) (toolName serverName : String) :
    realMCPCache × realMCPCacheManager :=
  let key := pairKey toolName serverName
  match mapLookup key cm.caches with
  | some cache => (cache, cm)
  | none => (newRealMCPCache, { cm with caches := mapInsert key newRealMCPCache cm.caches })

/-- Reinstall the (possibly mutated) per-pair cache into the manager's
table.  In Go the table stores a pointer and the cache mutates in place;
explicit state passing makes the write-back a separate step. -/
def writeBack (cm : realMCPCacheManager) (pk : String) (c : realMCPCache) :
    realMCPCacheManager :=
  { cm with caches := mapInsert pk c cm.caches }

/-- Embedding of `realMCPCacheManager.ExecuteWithCache` from core/mcp.go.

The direct execution path (`realManager.executeTool`, a network call) is
passed in as `executeOutcome`, the `(result, err)` pair that call returns;
the embedding covers the case in which the global MCP manager is
available (when it is not, the Go function returns an error before
touching any cache, so no cache write happens on that path either).

Steps, as in the source: stringify the arguments with `%v`, derive the
cache key, fetch/create the pair cache, consult it when caching is
enabled (returning the cached result on a hit), otherwise execute; a
successful (`err == nil`) execution with `result.Success` is stored with
the manager's `DefaultTTL`. -/
def ExecuteWithCache (cm0 : realMCPCacheManager) (now : Int)
    (execution : MCPToolExecution) (executeOutcome : MCPToolResult × Option String) :
    (MCPToolResult × Option String) × realMCPCacheManager :=
  let args := execution.Arguments.map (fun p => (p.1, sprintfV p.2))
  let cacheKey := GenerateCacheKey execution.ToolName execution.ServerName args
  let pk := pairKey execution.ToolName execution.ServerName
  let step1 := GetCache cm0 execution.ToolName execution.ServerName
  let cm1 := step1.2
  let getStep : Option MCPCachedResult × realMCPCache :=
    if cm1.config.Enabled then
      match cacheGet now step1.1 cacheKey with
      | (.ok cached, c') => (some cached, c')
      | (.error _, c') => (none, c')
    else (none, step1.1)
  match getStep with
  | (some cached, c1) => ((cached.Result, none), writeBack cm1 pk c1)
  | (none, c1) =>
      let result := executeOutcome.1
      match executeOutcome.2 with
      | some e => ((result, some e), writeBack cm1 pk c1)
      | none =>
          if cm1.config.Enabled && result.Success then
            let c2 := cacheSet now c1 cacheKey result cm1.config.DefaultTTL
            ((result, none), writeBack cm1 pk c2)
          else
            ((result, none), writeBack cm1 pk c1)

/-- The Go zero value of `MCPCacheStats` (`var totalStats MCPCacheStats`). -/
def zeroStats : MCPCacheStats :=
  { TotalKeys := 0, HitCount := 0, MissCount := 0, HitRate := 0
    EvictionCount := 0, TotalSize := 0, AverageLatency := 0, LastCleanup := 0 }

/-- Embedding of `realMCPCacheManager.GetGlobalStats` from core/mcp.go: sum the
per-pair statistics, then derive `HitRate` when the denominator is
positive. -/
def GetGlobalStats (cm : realMCPCacheManager) : MCPCacheStats :=
  let totalStats := cm.caches.foldl (fun acc p =>
    let stats := cacheStats p.2
    { acc with
        HitCount := acc.HitCount + stats.HitCount
        MissCount := acc.MissCount + stats.MissCount
        TotalKeys := acc.TotalKeys + stats.TotalKeys
        TotalSize := acc.TotalSize + stats.TotalSize }) zeroStats
  if totalStats.HitCount + totalStats.MissCount > 0 then
    { totalStats with
        HitRate := (totalStats.HitCount : ℚ) / ((totalStats.HitCount + totalStats.MissCount : Int) : ℚ) }
  else totalStats

/-! ## `realMCPManager` tool refresh (`core/mcp.go`, section 13)

Network effects are passed in as oracles: `dialOk` tells whether a TCP
dial to an address succeeds (`net.DialTimeout` in `Connect`), and
`discover` gives the outcome of `discoverToolsFromServer` for a server
(the session open, handshake and tool-list request). -/

/-- Embedding of `MCPServerConfig` from core/mcp.go (`Type'` stands for the Go field
`Type`). -/
structure MCPServerConfig where
  Name : String
  Type' : String
  Host : String
  Port : Int
  Command : String
  Enabled : Bool

/-- Embedding of `MCPToolInfo` from core/mcp.go. -/
structure MCPToolInfo where
  Name : String
  Description : String
  Schema : List (String × GoVal)
  ServerName : String

/-- The fields of `MCPConfig` that the embedded operations read. -/
structure MCPConfig where
  Servers : List MCPServerConfig

/-- The state of a `realMCPManager`: configuration snapshot, per-server
connected flags, and the current tool catalog. -/
structure realMCPManager where
  config : MCPConfig
  connectedServers : List (String × Bool)
  tools : List MCPToolInfo

/-- Embedding of `realMCPManager.Connect` from core/mcp.go: fail when the name is not
configured; for `tcp` servers dial `host:port` and mark the server
connected on success; fail for any other transport type. -/
def connect (m : realMCPManager) (dialOk : String → Bool) (serverName : String) :
    Option String × realMCPManager :=
  match m.config.Servers.find? (fun s => s.Name = serverName) with
  | none => (some ("server " ++ serverName ++ " not found in configuration"), m)
  | some serverConfig =>
      if serverConfig.Type' = "tcp" then
        let address := serverConfig.Host ++ ":" ++ toString serverConfig.Port
        if dialOk address then
          (none, { m with connectedServers := mapInsert serverName true m.connectedServers })
        else
          (some ("connection failed to " ++ address), m)
      else
        (some ("unsupported server type: " ++ serverConfig.Type'), m)

/-- Embedding of `realMCPManager.RefreshTools` from core/mcp.go: clear the catalog;
for each enabled configured server try to `Connect` (skipping the server
on failure), and when it is connected ask it for its tools (skipping the
server on discovery failure), appending what it reports; finally return
`nil` — the function has no error return path. -/
def RefreshTools (m0 : realMCPManager) (dialOk : String → Bool)
    (discover : String → Except String (List MCPToolInfo)) :
    Option String × realMCPManager :=
  let servers := m0.config.Servers
  let cleared := { m0 with tools := [] }
  let final := servers.foldl (fun m server =>
    if server.Enabled then
      match connect m dialOk server.Name with
      | (some _, m') => m'
      | (none, m') =>
          let isConnected := (mapLookup server.Name m'.connectedServers).getD false
          if isConnected then
            match discover server.Name with
            | .error _ => m'
            | .ok serverTools => { m' with tools := m'.tools ++ serverTools }
          else m'
    else m) cleared
  (none, final)

/-! ## Strict JSON decoding (`encoding/json` as used by the parser)

`ParseToolCallJSON` first tries `json.Unmarshal(data, &result)` with
`result : map[string]interface\x7b\x7d`.  `Unmarshal` validates the whole
input before decoding anything, requires the top-level value to be an
object for this target type, decodes nested objects to nested maps, keeps
the last binding of a duplicated key, and fails on trailing non-space
input.  The recursive-descent parser below implements that behaviour;
numbers are kept as raw literal text (see `GoVal`), and `\u` escapes
decode a single code point (surrogate-pair recombination, which no claim
exercises, is not modelled). -/

/-- JSON insignificant whitespace. -/
def jsonWS (c : Char) : Bool :=
  c = ' ' || c = '\t' || c = '\n' || c = '\r'

/-- Skip insignificant whitespace. -/
def skipWS (l : List Char) : List Char :=
  dropWhileChar jsonWS l

/-- Value of a hex digit. -/
def hexVal (c : Char) : Option Nat :=
  if '0' ≤ c ∧ c ≤ '9' then some (c.toNat - 48)
  else if 'a' ≤ c ∧ c ≤ 'f' then some (c.toNat - 87)
  else if 'A' ≤ c ∧ c ≤ 'F' then some (c.toNat - 55)
  else none

/-- Decode the body of a JSON string, the opening quote already consumed;
returns the decoded string and the input after the closing quote. -/
def parseStringBody (acc : List Char) : List Char → Option (String × List Char)
  | [] => none
  | '"' :: rest => some (String.mk acc.reverse, rest)
  | '\\' :: esc :: rest =>
      match esc with
      | '"' => parseStringBody ('"' :: acc) rest
      | '\\' => parseStringBody ('\\' :: acc) rest
      | '/' => parseStringBody ('/' :: acc) rest
      | 'b' => parseStringBody (Char.ofNat 8 :: acc) rest
      | 'f' => parseStringBody (Char.ofNat 12 :: acc) rest
      | 'n' => parseStringBody ('\n' :: acc) rest
      | 'r' => parseStringBody ('\r' :: acc) rest
      | 't' => parseStringBody ('\t' :: acc) rest
      | 'u' =>
          match rest with
          | h1 :: h2 :: h3 :: h4 :: rest' =>
              match hexVal h1, hexVal h2, hexVal h3, hexVal h4 with
              | some a, some b, some c, some d =>
                  parseStringBody (Char.ofNat (((a * 16 + b) * 16 + c) * 16 + d) :: acc) rest'
              | _, _, _, _ => none
          | _ => none
      | _ => none
  | c :: rest =>
      if c.toNat < 0x20 then none else parseStringBody (c :: acc) rest

/-- ASCII digit test. -/
def isDigitChar (c : Char) : Bool :=
  '0' ≤ c && c ≤ '9'

/-- Longest digit run at the front. -/
def spanDigits : List Char → List Char × List Char
  | [] => ([], [])
  | c :: rest =>
      if isDigitChar c then
        let p := spanDigits rest
        (c :: p.1, p.2)
      else ([], c :: rest)

/-- Parse the exponent part of a JSON number (or nothing). -/
def parseNumExp (acc : List Char) : List Char → Option (GoVal × List Char)
  | [] => some (.num (String.mk acc), [])
  | c :: rest =>
      if c = 'e' ∨ c = 'E' then
        let signSplit : List Char × List Char :=
          match rest with
          | s :: r => if s = '+' ∨ s = '-' then ([s], r) else ([], s :: r)
          | [] => ([], [])
        match spanDigits signSplit.2 with
        | ([], _) => none
        | (d, r) => some (.num (String.mk (acc ++ c :: signSplit.1 ++ d)), r)
      else some (.num (String.mk acc), c :: rest)

/-- Parse the fraction and exponent parts of a JSON number. -/
def parseNumFrac (acc : List Char) : List Char → Option (GoVal × List Char)
  | '.' :: rest =>
      (match spanDigits rest with
       | ([], _) => none
       | (d, r) => parseNumExp (acc ++ '.' :: d) r)
  | l => parseNumExp acc l

/-- Parse a JSON number (RFC 8259 grammar), kept as its raw literal. -/
def parseNumber (l : List Char) : Option (GoVal × List Char) :=
  let negSplit : List Char × List Char :=
    match l with
    | '-' :: rest => (['-'], rest)
    | _ => ([], l)
  match negSplit.2 with
  | '0' :: rest => parseNumFrac (negSplit.1 ++ ['0']) rest
  | c :: rest =>
      if isDigitChar c then
        let p := spanDigits rest
        parseNumFrac (negSplit.1 ++ c :: p.1) p.2
      else none
  | [] => none

/-- Parser mode: a plain value, the members of an object being read
(with the bindings decoded so far), or the elements of an array. -/
inductive JMode where
  | value : JMode
  | members : List (String × GoVal) → JMode
  | elems : List GoVal → JMode

/-- Recursive-descent JSON parser.  The fuel argument only bounds the
recursion depth structurally; since at least one input character is
consumed between successive recursive calls, fuel `length + 1` never
runs out on any input. -/
def parseJ : Nat → JMode → List Char → Option (GoVal × List Char)
  | 0, _, _ => none
  | fuel + 1, .value, l =>
      (match skipWS l with
       | '"' :: rest => (parseStringBody [] rest).map (fun p => (GoVal.str p.1, p.2))
       | 't' :: 'r' :: 'u' :: 'e' :: rest => some (.boolean true, rest)
       | 'f' :: 'a' :: 'l' :: 's' :: 'e' :: rest => some (.boolean false, rest)
       | 'n' :: 'u' :: 'l' :: 'l' :: rest => some (.null, rest)
       | '{' :: rest =>
           (match skipWS rest with
            | '}' :: rest' => some (.obj [], rest')
            | _ => parseJ fuel (.members []) rest)
       | '[' :: rest =>
           (match skipWS rest with
            | ']' :: rest' => some (.arr [], rest')
            | _ => parseJ fuel (.elems []) rest)
       | l' => parseNumber l')
  | fuel + 1, .members acc, l =>
      (match skipWS l with
       | '"' :: rest =>
           (match parseStringBody [] rest with
            | none => none
            | some (key, rest1) =>
                match skipWS rest1 with
                | ':' :: rest2 =>
                    (match parseJ fuel .value rest2 with
                     | none => none
                     | some (v, rest3) =>
                         let acc' := mapInsert key v acc
                         match skipWS rest3 with
                         | ',' :: rest4 => parseJ fuel (.members acc') rest4
                         | '}' :: rest4 => some (.obj acc', rest4)
                         | _ => none)
                | _ => none)
       | _ => none)
  | fuel + 1, .elems acc, l =>
      (match parseJ fuel .value l with
       | none => none
       | some (v, rest) =>
           match skipWS rest with
           | ',' :: rest' => parseJ fuel (.elems (v :: acc)) rest'
           | ']' :: rest' => some (.arr (v :: acc).reverse, rest')
           | _ => none)

/-- Model of `json.Unmarshal(data, &result)` for
`result : map[string]interface\x7b\x7d`: the whole input must be a single
JSON object (plus insignificant whitespace). -/
def jsonUnmarshalObject (s : String) : Option (List (String × GoVal)) :=
  match parseJ (s.data.length + 1) .value s.data with
  | some (.obj m, rest) => if (skipWS rest).isEmpty then some m else none
  | _ => none

/-! ## Tool-call extraction (`core/mcp.go`, section 15) -/

/-- Go `strings.Split` on a single-character separator. -/
def splitOnChar (sep : Char) : List Char → List (List Char)
  | [] => [[]]
  | c :: rest =>
      if c = sep then [] :: splitOnChar sep rest
      else
        match splitOnChar sep rest with
        | [] => [[c]]
        | piece :: pieces => (c :: piece) :: pieces

/-- Go `strings.SplitN(s, sep, 2)` on a single-character separator, as the
pair around the first occurrence (`none` when `sep` does not occur, i.e.
`strings.Contains` is false). -/
def splitFirstChar (sep : Char) : List Char → Option (List Char × List Char)
  | [] => none
  | c :: rest =>
      if c = sep then some ([], rest)
      else (splitFirstChar sep rest).map (fun p => (c :: p.1, p.2))

/-- The cutset of `strings.Trim(s, "\x7b\x7d")`. -/
def braceCut (c : Char) : Bool :=
  c = '{' || c = '}'

/-- The cutset of `strings.Trim(s, " \"")`. -/
def quoteSpaceCut (c : Char) : Bool :=
  c = ' ' || c = '"'

/-- Embedding of `ParseToolCallJSON` from core/mcp.go, over characters: try strict JSON
decoding; on failure strip the outer-brace characters, split on every
comma, split each piece at its first colon, trim quotes and spaces, and
decode an `args` value that begins with `\x7b` and ends with `\x7d` by a
recursive call on the full parser.

The first argument is structural fuel so that the definition reduces in
the kernel.  Each recursive call is on the trimmed text after a piece's
first colon, which is strictly shorter than the input, so any fuel above
`l.length` yields the same result (`parseToolCallFuel_irrelevant` below);
every entry point passes `l.length + 1`. -/
def parseToolCallFuel : Nat → List Char → List (String × GoVal)
  | 0, _ => []
  | fuel + 1, l =>
      match jsonUnmarshalObject (String.mk l) with
      | some m => m
      | none =>
          let trimmed := trimWhile braceCut l
          let parts := splitOnChar ',' trimmed
          parts.foldl (fun result part =>
            match splitFirstChar ':' part with
            | none => result
            | some kv =>
                let key := String.mk (trimWhile quoteSpaceCut kv.1)
                let value := trimWhile quoteSpaceCut kv.2
                if key = "args" ∧ value.head? = some '{' ∧ value.getLast? = some '}' then
                  mapInsert key (.obj (parseToolCallFuel fuel value)) result
                else
                  mapInsert key (.str (String.mk value)) result) []

/-- Embedding of `ParseToolCallJSON` from core/mcp.go. -/
def ParseToolCallJSON (jsonStr : String) : List (String × GoVal) :=
  parseToolCallFuel (jsonStr.data.length + 1) jsonStr.data

/-- Front-segment test: if `sep` is an initial segment of `l`, return the
remainder of `l` after it. -/
def dropSeq : List Char → List Char → Option (List Char)
  | [], l => some l
  | _ :: _, [] => none
  | c :: srest, d :: lrest => if c = d then dropSeq srest lrest else none

/-- Model of Go `strings.Split(s, sep)` for a non-empty separator (the
parser only splits on the literal `TOOL_CALL` marker): the pieces of `s`
between the leftmost non-overlapping occurrences of `sep`.  The fuel
argument makes the recursion structural; at least one character is
consumed per step, so the entry point's `l.length` never runs out. -/
def goSplitFuel (sep : List Char) : Nat → List Char → List (List Char)
  | _, [] => [[]]
  | 0, l => [l]
  | fuel + 1, c :: rest =>
      match dropSeq sep (c :: rest) with
      | some remainder => [] :: goSplitFuel sep fuel remainder
      | none =>
          match goSplitFuel sep fuel rest with
          | [] => [[c]]
          | piece :: pieces => (c :: piece) :: pieces

/-- Model of Go `strings.Split` over characters. -/
def goSplit (sep l : List Char) : List (List Char) :=
  goSplitFuel sep l.length l

/-- The brace-depth scan of `ParseLLMToolCalls`: Go iterates with the
byte index `j` and an integer depth counter, decrementing on `\x7d` and
stopping at depth zero; for the segments at hand (which start at a brace)
byte and character positions of the terminating brace agree.  Returns
`none` when no closing brace balances the scan (`endIndex` stays -1). -/
def braceScanGo : List Char → Nat → Int → Option Nat
  | [], _, _ => none
  | c :: rest, j, braceCount =>
      if c = '{' then braceScanGo rest (j + 1) (braceCount + 1)
      else if c = '}' then
        if braceCount - 1 = 0 then some j
        else braceScanGo rest (j + 1) (braceCount - 1)
      else braceScanGo rest (j + 1) braceCount

/-- Embedding of `ParseLLMToolCalls` from core/mcp.go: split the text on the literal
`TOOL_CALL` marker; for every following segment that starts with an
opening brace, scan to the balancing close brace, decode that substring
with `ParseToolCallJSON`, and keep non-empty decodings.  Segments without
a balanced brace are skipped. -/
def ParseLLMToolCalls (content : String) : List (List (String × GoVal)) :=
  let parts := goSplit "TOOL_CALL".data content.data
  (parts.drop 1).foldl (fun toolCalls cs =>
    if cs.head? = some '{' then
      match braceScanGo cs 0 0 with
      | some endIndex =>
          if endIndex > 0 then
            let jsonStr := cs.take (endIndex + 1)
            let toolCall := parseToolCallFuel (jsonStr.length + 1) jsonStr
            if toolCall.length > 0 then toolCalls ++ [toolCall] else toolCalls
          else toolCalls
      | none => toolCalls
    else toolCalls) []

/-! ## View helpers and concrete fixtures used by the theorems -/

/-- The per-pair cache currently stored for `(toolName, serverName)` (the
empty cache when the pair has not been created yet). -/
def cacheOf (cm : realMCPCacheManager) (toolName serverName : String) : realMCPCache :=
  (mapLookup (pairKey toolName serverName) cm.caches).getD newRealMCPCache

/-- The permissive fallback decoder as the (corrected) specification
sentence describes it: strip all outer-brace characters, split the
remaining text at every comma, split each piece at its first colon
(pieces without a colon are dropped), trim space and double-quote
characters from key and value, and decode an `args` value that begins
with `\x7b` and ends with `\x7d` through `decode`, the decoder applied
recursively.  Used to state the refinement theorem for the fallback
branch of `ParseToolCallJSON`. -/
def permissiveFallbackSpec (decode : List Char → List (String × GoVal)) (l : List Char) :
    List (String × GoVal) :=
  let pieces := splitOnChar ',' (trimWhile braceCut l)
  let pairs := pieces.filterMap (fun piece =>
    (splitFirstChar ':' piece).map (fun kv =>
      (String.mk (trimWhile quoteSpaceCut kv.1), trimWhile quoteSpaceCut kv.2)))
  pairs.foldl (fun result kv =>
    if kv.1 = "args" ∧ kv.2.head? = some '{' ∧ kv.2.getLast? = some '}' then
      mapInsert kv.1 (.obj (decode kv.2)) result
    else
      mapInsert kv.1 (.str (String.mk kv.2)) result) []

/-- Fixture: a successful tool result. -/
def okResult : MCPToolResult :=
  { ToolName := "t", ServerName := "s", Success := true, Content := []
    Error := "", Duration := 1 }

/-- Fixture: a second, distinguishable successful tool result. -/
def okResult2 : MCPToolResult :=
  { ToolName := "t", ServerName := "s", Success := true, Content := []
    Error := "", Duration := 2 }

/-- Fixture: a failed tool result (`Success = false`). -/
def failResult : MCPToolResult :=
  { ToolName := "t", ServerName := "s", Success := false, Content := []
    Error := "boom", Duration := 1 }

/-- Fixture: a cache configuration with caching enabled, default TTL 99ns
and a per-tool TTL override of 5ns for tool `t`. -/
def cfgOn : MCPCacheConfig :=
  { Enabled := true, DefaultTTL := 99, MaxSize := 0, MaxKeys := 0
    EvictionPolicy := "lru", CleanupInterval := 0, ToolTTLs := [("t", 5)]
    Backend := "memory", BackendConfig := [] }

/-- Fixture: a cache manager with no per-pair caches yet. -/
def cmEmpty : realMCPCacheManager :=
  { config := cfgOn, caches := [] }

/-- Fixture: an unexpired cache entry stored under an unrelated key. -/
def entryOther : MCPCachedResult :=
  { Key := { ToolName := "o", ServerName := "o", Args := [], Hash := "h" }
    Result := okResult, Timestamp := 0, TTL := 1000, AccessCount := 0, Metadata := [] }

/-- Fixture: a cache manager whose `(t, s)` pair cache holds `entryOther`
under the key `"other"`. -/
def cmSeeded : realMCPCacheManager :=
  { config := cfgOn, caches := [("t:s", { data := [("other", entryOther)] })] }

/-- Fixture: an execution request for tool `t` on server `s` with no
arguments. -/
def execTS : MCPToolExecution :=
  { ToolName := "t", Arguments := [], ServerName := "s" }

/-- Fixture: the manager state after a first `ExecuteWithCache` call (a
miss at time 0 whose successful result is stored). -/
def c4cm1 : realMCPCacheManager :=
  (ExecuteWithCache cmEmpty 0 execTS (okResult, none)).2

/-- Fixture: the manager state after a second `ExecuteWithCache` call on
the same invocation (a hit at time 1). -/
def c4cm2 : realMCPCacheManager :=
  (ExecuteWithCache c4cm1 1 execTS (okResult2, none)).2

/-- Fixture: a cache key whose string form is `t:s:h`. -/
def keyW : MCPCacheKey :=
  { ToolName := "t", ServerName := "s", Args := [], Hash := "h" }

/-- Fixture: an entry for `keyW` created at time 0 with TTL 5ns — expired
at time 100. -/
def expiredEntry : MCPCachedResult :=
  { Key := keyW, Result := okResult, Timestamp := 0, TTL := 5
    AccessCount := 0, Metadata := [] }

/-- Fixture: a cache holding only the expired `expiredEntry`. -/
def cacheW : realMCPCache :=
  { data := [(keyToString keyW, expiredEntry)] }

/-- Fixture: a manager configured with no servers at all. -/
def mgrNoServers : realMCPManager :=
  { config := { Servers := [] }, connectedServers := [], tools := [] }

/-! ## Helper lemmas -/

theorem dropWhileChar_length_le (p : Char → Bool) (l : List Char) :
    (dropWhileChar p l).length ≤ l.length := by
  induction l with
  | nil => simp [dropWhileChar]
  | cons c rest ih =>
      simp only [dropWhileChar]
      split
      · exact Nat.le_succ_of_le ih
      · simp

theorem trimWhile_length_le (p : Char → Bool) (l : List Char) :
    (trimWhile p l).length ≤ l.length := by
  unfold trimWhile
  calc (dropWhileChar p (dropWhileChar p l).reverse).reverse.length
      = (dropWhileChar p (dropWhileChar p l).reverse).length := by simp
    _ ≤ (dropWhileChar p l).reverse.length := dropWhileChar_length_le _ _
    _ = (dropWhileChar p l).length := by simp
    _ ≤ l.length := dropWhileChar_length_le _ _

theorem splitOnChar_length_le {sep : Char} {l piece : List Char}
    (h : piece ∈ splitOnChar sep l) : piece.length ≤ l.length := by
  induction l generalizing piece with
  | nil =>
      simp only [splitOnChar, List.mem_singleton] at h
      simp [h]
  | cons c rest ih =>
      simp only [splitOnChar] at h
      split at h
      · rcases List.mem_cons.mp h with h' | h'
        · simp [h']
        · exact Nat.le_succ_of_le (ih h')
      · revert h
        split
        · next heq =>
            intro h
            rcases List.mem_singleton.mp h with rfl
            simp
        · next piece' pieces heq =>
            intro h
            rcases List.mem_cons.mp h with h' | h'
            · subst h'
              have hmem : piece' ∈ splitOnChar sep rest := by
                rw [heq]; exact List.mem_cons_self _ _
              simpa using Nat.succ_le_succ (ih hmem)
            · have hmem : piece ∈ splitOnChar sep rest := by
                rw [heq]; exact List.mem_cons_of_mem _ h'
              exact Nat.le_succ_of_le (ih hmem)

theorem splitFirstChar_length_lt {sep : Char} {l k v : List Char}
    (h : splitFirstChar sep l = some (k, v)) : v.length < l.length := by
  induction l generalizing k v with
  | nil => simp [splitFirstChar] at h
  | cons c rest ih =>
      simp only [splitFirstChar] at h
      split at h
      · simp only [Option.some.injEq, Prod.mk.injEq] at h
        obtain ⟨-, hv⟩ := h
        subst hv
        simp
      · cases hrec : splitFirstChar sep rest with
        | none => rw [hrec] at h; simp at h
        | some p =>
            rw [hrec] at h
            simp only [Option.map_some', Option.some.injEq, Prod.mk.injEq] at h
            obtain ⟨-, hv⟩ := h
            subst hv
            exact Nat.lt_succ_of_lt (ih (hrec.trans (by rw [Prod.mk.eta])))

theorem foldl_congr_mem {α β : Type} {f g : β → α → β} {l : List α} {init : β}
    (h : ∀ b a, a ∈ l → f b a = g b a) : l.foldl f init = l.foldl g init := by
  induction l generalizing init with
  | nil => rfl
  | cons x xs ih =>
      simp only [List.foldl_cons]
      rw [h init x (List.mem_cons_self _ _)]
      exact ih (fun b a ha => h b a (List.mem_cons_of_mem _ ha))

/-- Folding a "match an optional decomposition" body equals filtering the
decompositions first and folding the remainder. -/
theorem foldl_match_filterMap {α β γ : Type} (f : α → Option γ) (g : β → γ → β)
    (l : List α) (init : β) :
    l.foldl (fun b a => match f a with | none => b | some c => g b c) init
      = (l.filterMap f).foldl g init := by
  induction l generalizing init with
  | nil => rfl
  | cons x xs ih =>
      simp only [List.foldl_cons, List.filterMap_cons]
      cases hfx : f x with
      | none => exact ih init
      | some c => simp only [List.foldl_cons]; exact ih (g init c)

/-- Any fuel above the input length gives the same tool-call decoding:
the fuel in `parseToolCallFuel` is a structural device, not part of the
modelled behaviour. -/
theorem parseToolCallFuel_irrelevant_aux (n : Nat) :
    ∀ (l : List Char), l.length < n → ∀ f1 f2, l.length < f1 → l.length < f2 →
      parseToolCallFuel f1 l = parseToolCallFuel f2 l := by
  induction n with
  | zero => intro l h; omega
  | succ n ih =>
      intro l hln f1 f2 h1 h2
      obtain ⟨k1, rfl⟩ : ∃ k, f1 = k + 1 := ⟨f1 - 1, by omega⟩
      obtain ⟨k2, rfl⟩ : ∃ k, f2 = k + 1 := ⟨f2 - 1, by omega⟩
      simp only [parseToolCallFuel]
      cases jsonUnmarshalObject (String.mk l) with
      | some m => rfl
      | none =>
          simp only
          apply foldl_congr_mem
          intro b part hmem
          cases hsplit : splitFirstChar ':' part with
          | none => rfl
          | some kv =>
              simp only
              split
              · have hv : (trimWhile quoteSpaceCut kv.2).length < l.length := by
                  have ha : (trimWhile quoteSpaceCut kv.2).length ≤ kv.2.length :=
                    trimWhile_length_le _ _
                  have hb : kv.2.length < part.length := splitFirstChar_length_lt hsplit
                  have hc : part.length ≤ (trimWhile braceCut l).length :=
                    splitOnChar_length_le hmem
                  have hd : (trimWhile braceCut l).length ≤ l.length :=
                    trimWhile_length_le _ _
                  omega
                rw [ih (trimWhile quoteSpaceCut kv.2) (by omega) k1 k2 (by omega) (by omega)]
              · rfl

theorem parseToolCallFuel_irrelevant {l : List Char} {f1 f2 : Nat}
    (h1 : l.length < f1) (h2 : l.length < f2) :
    parseToolCallFuel f1 l = parseToolCallFuel f2 l :=
  parseToolCallFuel_irrelevant_aux (l.length + 1) l (Nat.lt_succ_self _) f1 f2 h1 h2

/-- Erasing a key that is not in the map changes nothing. -/
theorem mapErase_of_not_mem {α : Type} {k : String} {l : List (String × α)}
    (h : k ∉ mapKeys l) : mapErase k l = l := by
  induction l with
  | nil => rfl
  | cons p rest ih =>
      unfold mapKeys at h
      simp only [List.map_cons, List.mem_cons, not_or] at h
      obtain ⟨hp, hrest⟩ := h
      simp only [mapErase]
      rw [if_neg (fun he => hp he.symm)]
      rw [ih hrest]

/-- Erasing a present key from a map with distinct keys removes exactly
one binding. -/
theorem mapErase_length {α : Type} {k : String} {l : List (String × α)} {v : α}
    (hnodup : NodupKeys l) (hmem : mapLookup k l = some v) :
    (mapErase k l).length + 1 = l.length := by
  induction l with
  | nil => simp [mapLookup] at hmem
  | cons p rest ih =>
      unfold NodupKeys mapKeys at hnodup
      simp only [List.map_cons, List.nodup_cons] at hnodup
      obtain ⟨hp, hrest⟩ := hnodup
      simp only [mapLookup] at hmem
      simp only [mapErase]
      by_cases hk : p.1 = k
      · subst hk
        rw [if_pos rfl]
        rw [mapErase_of_not_mem hp]
        simp
      · rw [if_neg hk] at hmem
        rw [if_neg hk]
        have hth := ih hrest hmem
        simp only [List.length_cons]
        omega

/-- Looking up the key just written returns the written value. -/
theorem mapLookup_mapInsert_self {α : Type} (k : String) (v : α) (l : List (String × α)) :
    mapLookup k (mapInsert k v l) = some v := by
  induction l with
  | nil => simp [mapInsert, mapLookup]
  | cons p rest ih =>
      simp only [mapInsert]
      by_cases hk : p.1 = k
      · rw [if_pos hk]
        simp [mapLookup]
      · rw [if_neg hk]
        simp only [mapLookup]
        rw [if_neg hk]
        exact ih

/-- The summation loop of `GetGlobalStats` leaves the hit and miss
counters (and the rate) of the accumulator unchanged, because every
per-cache `Stats` reports zero for them. -/
theorem globalStats_fold_counters (l : List (String × realMCPCache)) (acc : MCPCacheStats) :
    (l.foldl (fun acc p =>
      let stats := cacheStats p.2
      { acc with
          HitCount := acc.HitCount + stats.HitCount
          MissCount := acc.MissCount + stats.MissCount
          TotalKeys := acc.TotalKeys + stats.TotalKeys
          TotalSize := acc.TotalSize + stats.TotalSize }) acc).HitCount = acc.HitCount ∧
    (l.foldl (fun acc p =>
      let stats := cacheStats p.2
      { acc with
          HitCount := acc.HitCount + stats.HitCount
          MissCount := acc.MissCount + stats.MissCount
          TotalKeys := acc.TotalKeys + stats.TotalKeys
          TotalSize := acc.TotalSize + stats.TotalSize }) acc).MissCount = acc.MissCount ∧
    (l.foldl (fun acc p =>
      let stats := cacheStats p.2
      { acc with
          HitCount := acc.HitCount + stats.HitCount
          MissCount := acc.MissCount + stats.MissCount
          TotalKeys := acc.TotalKeys + stats.TotalKeys
          TotalSize := acc.TotalSize + stats.TotalSize }) acc).HitRate = acc.HitRate := by
  induction l generalizing acc with
  | nil => exact ⟨rfl, rfl, rfl⟩
  | cons p rest ih =>
      simp only [List.foldl_cons]
      obtain ⟨h1, h2, h3⟩ := ih
        { acc with
            HitCount := acc.HitCount + (cacheStats p.2).HitCount
            MissCount := acc.MissCount + (cacheStats p.2).MissCount
            TotalKeys := acc.TotalKeys + (cacheStats p.2).TotalKeys
            TotalSize := acc.TotalSize + (cacheStats p.2).TotalSize }
      refine ⟨?_, ?_, ?_⟩
      · rw [h1]; simp [cacheStats]
      · rw [h2]; simp [cacheStats]
      · rw [h3]

/-! ## Claim theorems -/

/-- C10: the `Hash` digest of a generated cache key depends only on the
argument mapping, never on the tool or server name — for all tool and
server names and every argument map, the digests coincide — and distinct
tools or servers are disambiguated only by the
`toolName:serverName:hash` composite produced by `keyToString`. -/
theorem hash_ignores_tool_and_server (t1 t2 s1 s2 : String)
    (args : List (String × String)) :
    (GenerateCacheKey t1 s1 args).Hash = (GenerateCacheKey t2 s2 args).Hash ∧
    keyToString (GenerateCacheKey t1 s1 args)
      = t1 ++ ":" ++ s1 ++ ":" ++ generateArgHash args :=
  ⟨rfl, by simp [keyToString, GenerateCacheKey]⟩

set_option maxRecDepth 10000 in
set_option maxHeartbeats 1000000 in
/-- C1: the claim is refuted by the code — `GenerateCacheKey` hashes the
raw argument map, not the normalized one, so two argument maps that
differ only in the case of a key (and therefore normalize identically)
produce different digests.  Here `\x7b"K": "v"\x7d` and
`\x7b"k": "v"\x7d` normalize to the same map yet hash differently. -/
theorem cacheKey_hash_not_normalized :
    normalizeArgs [("K", "v")] = normalizeArgs [("k", "v")] ∧
    (GenerateCacheKey "t" "s" [("K", "v")]).Hash
      ≠ (GenerateCacheKey "t" "s" [("k", "v")]).Hash :=
  ⟨rfl, by decide⟩

/-- C9 (amended): `RefreshTools` never returns an error — per-server
connection or discovery failures are skipped, and the call also returns
success when no servers are configured at all. -/
theorem refreshTools_never_errors (m : realMCPManager) (dialOk : String → Bool)
    (discover : String → Except String (List MCPToolInfo)) :
    (RefreshTools m dialOk discover).1 = none :=
  rfl

/-- C9 counterexample: with an empty server list, `RefreshTools` still
returns a non-error result, where the claim requires an error when no
servers are configured. -/
theorem refreshTools_no_servers_no_error :
    mgrNoServers.config.Servers = [] ∧
    (RefreshTools mgrNoServers (fun _ => false) (fun _ => .error "unreachable")).1 = none :=
  ⟨rfl, rfl⟩

/-- C4 (amended): `GetGlobalStats` always reports zero hits, zero misses
and hit rate 0, whatever executions took place: the per-pair caches
hard-code their hit/miss counters to zero and no layer maintains them, so
the summed statistics never reflect actual hits or misses. -/
theorem getGlobalStats_always_zero (cm : realMCPCacheManager) :
    (GetGlobalStats cm).HitCount = 0 ∧ (GetGlobalStats cm).MissCount = 0 ∧
    (GetGlobalStats cm).HitRate = 0 := by
  obtain ⟨h1, h2, h3⟩ := globalStats_fold_counters cm.caches zeroStats
  unfold GetGlobalStats
  rw [if_neg (by rw [h1, h2]; norm_num [zeroStats])]
  exact ⟨h1, h2, h3⟩

set_option maxRecDepth 10000 in
set_option maxHeartbeats 1000000 in
/-- C4 counterexample: a run with one miss (the first call executes and
stores `okResult`) and one hit (the second call returns the cached
`okResult` instead of the fresh `okResult2`) must, per the claim, give
hit rate 1/2; the code reports 0. -/
theorem getGlobalStats_misses_hits_counterexample :
    (ExecuteWithCache cmEmpty 0 execTS (okResult, none)).1.1 = okResult ∧
    (ExecuteWithCache c4cm1 1 execTS (okResult2, none)).1.1 = okResult ∧
    (GetGlobalStats c4cm2).HitRate = 0 ∧ ((0 : ℚ) ≠ 1 / 2) :=
  ⟨rfl, rfl, rfl, by norm_num⟩

/-- C3: for a cache whose map state has distinct keys, `Get` returns the
stored entry unchanged while the entry's age does not exceed its TTL;
once the age exceeds the TTL it reports `cache expired`, deletes the
entry, and the entry count drops by exactly one; and `Get` on an absent
key reports `cache miss` without mutation. -/
theorem cacheGet_spec (now : Int) (c : realMCPCache) (key : MCPCacheKey)
    (hnodup : NodupKeys c.data) :
    (mapLookup (keyToString key) c.data = none →
        cacheGet now c key = (.error "cache miss", c)) ∧
    (∀ r, mapLookup (keyToString key) c.data = some r →
        (now - r.Timestamp ≤ r.TTL → cacheGet now c key = (.ok r, c)) ∧
        (now - r.Timestamp > r.TTL →
            (cacheGet now c key).1 = .error "cache expired" ∧
            (cacheGet now c key).2.data.length + 1 = c.data.length)) := by
  constructor
  · intro habs
    simp only [cacheGet]
    rw [habs]
  · intro r hr
    constructor
    · intro hfresh
      simp only [cacheGet]
      rw [hr]
      simp only
      rw [if_neg (by omega)]
    · intro hexp
      simp only [cacheGet]
      rw [hr]
      simp only
      rw [if_pos hexp]
      exact ⟨rfl, mapErase_length hnodup hr⟩

/-- Witness for C3 at a concrete cache: `cacheW` holds one entry created
at time 0 with TTL 5; at time 100 `Get` reports expiry and the entry
count drops from 1 to 0. -/
theorem cacheGet_spec_witness :
    NodupKeys cacheW.data ∧
    (cacheGet 100 cacheW keyW).1 = .error "cache expired" ∧
    (cacheGet 100 cacheW keyW).2.data.length + 1 = cacheW.data.length :=
  ⟨by decide,
   ((cacheGet_spec 100 cacheW keyW (by decide)).2 expiredEntry rfl).2 (by decide)⟩

/-- C6 (amended): `Exists` is a bare membership test, not the expiry
check of `Get`: it returns `true` exactly when the key is present in the
map — in particular it still returns `true` for an entry whose age
exceeds its TTL — and it never mutates the cache. -/
theorem cacheExists_membership (c : realMCPCache) (key : MCPCacheKey) :
    (cacheExists c key = true ↔ mapLookup (keyToString key) c.data ≠ none) ∧
    (∀ now r, mapLookup (keyToString key) c.data = some r →
        now - r.Timestamp > r.TTL → cacheExists c key = true) := by
  constructor
  · unfold cacheExists
    cases mapLookup (keyToString key) c.data <;> simp
  · intro now r hr _
    unfold cacheExists
    rw [hr]
    rfl

/-- Witness for C6's amended form: the expired entry of `cacheW` still
makes `Exists` answer `true`. -/
theorem cacheExists_membership_witness :
    mapLookup (keyToString keyW) cacheW.data = some expiredEntry ∧
    (100 : Int) - expiredEntry.Timestamp > expiredEntry.TTL ∧
    cacheExists cacheW keyW = true :=
  ⟨rfl, by decide,
   (cacheExists_membership cacheW keyW).2 100 expiredEntry rfl (by decide)⟩

/-- C6 counterexample: at time 100 the only entry of `cacheW` is expired —
`Get` reports `cache expired` — yet `Exists` still returns `true`, where
the claim requires `false` for an entry whose age exceeds its TTL. -/
theorem cacheExists_expired_counterexample :
    (cacheGet 100 cacheW keyW).1 = .error "cache expired" ∧
    cacheExists cacheW keyW = true :=
  ⟨rfl, rfl⟩

/-- C2: when the underlying execution reports `Success = false` (with or
without a transport error), `ExecuteWithCache` stores nothing: a cache
key that was absent from the pair's cache before the call is still
absent afterwards, so every entry the function ever stores wraps a
successful result. -/
theorem executeWithCache_no_cache_on_failure
    (cm : realMCPCacheManager) (now : Int) (execution : MCPToolExecution)
    (result : MCPToolResult) (err : Option String)
    (hfail : result.Success = false)
    (hbefore : mapLookup (keyToString (GenerateCacheKey execution.ToolName
        execution.ServerName (execution.Arguments.map (fun p => (p.1, sprintfV p.2)))))
        (cacheOf cm execution.ToolName execution.ServerName).data = none) :
    mapLookup (keyToString (GenerateCacheKey execution.ToolName execution.ServerName
        (execution.Arguments.map (fun p => (p.1, sprintfV p.2)))))
        (cacheOf (ExecuteWithCache cm now execution (result, err)).2
          execution.ToolName execution.ServerName).data = none := by
  simp only [ExecuteWithCache, GetCache, cacheOf] at hbefore ⊢
  cases hpair : mapLookup (pairKey execution.ToolName execution.ServerName) cm.caches with
  | none =>
      simp only [cacheGet, newRealMCPCache, mapLookup, Option.getD, ite_self, writeBack]
      cases err with
      | some e => simp [mapLookup_mapInsert_self, mapLookup]
      | none => simp [hfail, Bool.and_false, mapLookup_mapInsert_self, mapLookup]
  | some cache =>
      rw [hpair] at hbefore
      simp only [Option.getD] at hbefore
      simp only [cacheGet]
      rw [hbefore]
      simp only [Option.getD, ite_self, writeBack]
      cases err with
      | some e => simp [mapLookup_mapInsert_self, hbefore]
      | none => simp [hfail, Bool.and_false, mapLookup_mapInsert_self, hbefore]

set_option maxRecDepth 10000 in
set_option maxHeartbeats 1000000 in
/-- Witness for C2: executing tool `t` on server `s` against `cmSeeded`
with a failing result leaves the invocation's cache key absent. -/
theorem executeWithCache_no_cache_on_failure_witness :
    failResult.Success = false ∧
    mapLookup (keyToString (GenerateCacheKey execTS.ToolName execTS.ServerName
        (execTS.Arguments.map (fun p => (p.1, sprintfV p.2)))))
      (cacheOf cmSeeded execTS.ToolName execTS.ServerName).data = none ∧
    mapLookup (keyToString (GenerateCacheKey execTS.ToolName execTS.ServerName
        (execTS.Arguments.map (fun p => (p.1, sprintfV p.2)))))
      (cacheOf (ExecuteWithCache cmSeeded 7 execTS (failResult, none)).2
        execTS.ToolName execTS.ServerName).data = none :=
  ⟨rfl, by rfl,
   executeWithCache_no_cache_on_failure cmSeeded 7 execTS failResult none rfl (by rfl)⟩

/-- C5 (amended): when `ExecuteWithCache` stores a successful result, the
TTL it uses is always the configured default TTL; the per-tool `ToolTTLs`
overrides are never consulted. -/
theorem executeWithCache_stores_default_ttl
    (cm : realMCPCacheManager) (now : Int) (execution : MCPToolExecution)
    (result : MCPToolResult)
    (henabled : cm.config.Enabled = true)
    (hsuccess : result.Success = true)
    (hbefore : mapLookup (keyToString (GenerateCacheKey execution.ToolName
        execution.ServerName (execution.Arguments.map (fun p => (p.1, sprintfV p.2)))))
        (cacheOf cm execution.ToolName execution.ServerName).data = none) :
    mapLookup (keyToString (GenerateCacheKey execution.ToolName execution.ServerName
        (execution.Arguments.map (fun p => (p.1, sprintfV p.2)))))
        (cacheOf (ExecuteWithCache cm now execution (result, none)).2
          execution.ToolName execution.ServerName).data
      = some { Key := GenerateCacheKey execution.ToolName execution.ServerName
                   (execution.Arguments.map (fun p => (p.1, sprintfV p.2)))
               Result := result, Timestamp := now
               TTL := cm.config.DefaultTTL, AccessCount := 0, Metadata := [] } := by
  simp only [ExecuteWithCache, GetCache, cacheOf] at hbefore ⊢
  cases hpair : mapLookup (pairKey execution.ToolName execution.ServerName) cm.caches with
  | none =>
      simp only [cacheGet, newRealMCPCache, mapLookup, Option.getD, ite_self, writeBack,
        cacheSet]
      simp [henabled, hsuccess, mapLookup_mapInsert_self]
  | some cache =>
      rw [hpair] at hbefore
      simp only [Option.getD] at hbefore
      simp only [cacheGet]
      rw [hbefore]
      simp only [Option.getD, ite_self, writeBack, cacheSet]
      simp [henabled, hsuccess, mapLookup_mapInsert_self]

set_option maxRecDepth 10000 in
set_option maxHeartbeats 1000000 in
/-- Witness for C5's amended form: a successful execution against
`cmEmpty` (default TTL 99, override 5 for tool `t`) stores the entry with
TTL 99. -/
theorem executeWithCache_stores_default_ttl_witness :
    cmEmpty.config.Enabled = true ∧
    okResult.Success = true ∧
    mapLookup (keyToString (GenerateCacheKey execTS.ToolName execTS.ServerName
        (execTS.Arguments.map (fun p => (p.1, sprintfV p.2)))))
      (cacheOf cmEmpty execTS.ToolName execTS.ServerName).data = none ∧
    mapLookup (keyToString (GenerateCacheKey execTS.ToolName execTS.ServerName
        (execTS.Arguments.map (fun p => (p.1, sprintfV p.2)))))
      (cacheOf (ExecuteWithCache cmEmpty 3 execTS (okResult, none)).2
        execTS.ToolName execTS.ServerName).data
      = some { Key := GenerateCacheKey execTS.ToolName execTS.ServerName
                   (execTS.Arguments.map (fun p => (p.1, sprintfV p.2)))
               Result := okResult, Timestamp := 3
               TTL := cmEmpty.config.DefaultTTL, AccessCount := 0, Metadata := [] } :=
  ⟨rfl, rfl, rfl,
   executeWithCache_stores_default_ttl cmEmpty 3 execTS okResult rfl rfl rfl⟩

set_option maxRecDepth 10000 in
set_option maxHeartbeats 1000000 in
/-- C5 counterexample: the configuration carries a per-tool TTL override
of 5ns for tool `t`, yet the entry stored for an execution of `t` gets
the default TTL 99ns — the override is ignored, where the claim requires
it to be used. -/
theorem executeWithCache_ignores_ttl_override :
    mapLookup "t" cmEmpty.config.ToolTTLs = some 5 ∧
    (mapLookup (keyToString (GenerateCacheKey "t" "s" []))
        (cacheOf (ExecuteWithCache cmEmpty 0 execTS (okResult, none)).2 "t" "s").data).map
      (fun e => e.TTL) = some 99 ∧
    (99 : Int) ≠ 5 :=
  ⟨rfl, by rfl, by decide⟩

set_option maxRecDepth 10000 in
set_option maxHeartbeats 1000000 in
/-- C7: `ParseLLMToolCalls` on the spec's three probes — a well-formed
marker call yields exactly one invocation with name `search` and
`args.query = "x"`; a marker followed by an unbalanced brace sequence
yields zero invocations without raising; marker-less text yields zero
invocations. -/
theorem parseLLMToolCalls_marker_extraction :
    ParseLLMToolCalls "... TOOL_CALL\x7b\"name\": \"search\", \"args\": \x7b\"query\": \"x\"\x7d\x7d ..."
      = [[("name", GoVal.str "search"), ("args", GoVal.obj [("query", GoVal.str "x")])]] ∧
    ParseLLMToolCalls "TOOL_CALL\x7bnot json at all" = [] ∧
    ParseLLMToolCalls "plain text, no marker" = [] :=
  ⟨rfl, rfl, rfl⟩

set_option maxRecDepth 10000 in
set_option maxHeartbeats 1000000 in
/-- C8 counterexample: the fallback splits at the comma inside the
two-entry `args` object — the input
`\x7bname: test, args: \x7ba: 1, b: 2\x7d\x7d` decodes with `args` bound
to the string fragment `"\x7ba: 1"` (and a stray `b` binding), not to
the nested mapping the claim requires. -/
theorem parseToolCallJSON_fallback_splits_args :
    ParseToolCallJSON "\x7bname: test, args: \x7ba: 1, b: 2\x7d\x7d"
      = [("name", GoVal.str "test"), ("args", GoVal.str "\x7ba: 1"), ("b", GoVal.str "2")] ∧
    (mapLookup "args" (ParseToolCallJSON "\x7bname: test, args: \x7ba: 1, b: 2\x7d\x7d")).map
      GoVal.isObj = some false :=
  ⟨rfl, rfl⟩

/-- C8 (amended): whenever strict JSON decoding fails, `ParseToolCallJSON`
computes exactly the permissive pipeline of `permissiveFallbackSpec`:
strip all outer-brace characters, split at every comma (top-level or
not), split each piece at its first colon, trim quotes and spaces, and
recurse (through the full parser) only into an `args` value that begins
with `\x7b` and ends with `\x7d`. -/
theorem parseToolCallJSON_fallback_spec (s : String)
    (hstrict : jsonUnmarshalObject s = none) :
    ParseToolCallJSON s
      = permissiveFallbackSpec (fun v => ParseToolCallJSON (String.mk v)) s.data := by
  show parseToolCallFuel (s.data.length + 1) s.data = _
  simp only [parseToolCallFuel]
  rw [show String.mk s.data = s from rfl, hstrict]
  unfold permissiveFallbackSpec
  simp only []
  rw [← foldl_match_filterMap]
  apply foldl_congr_mem
  intro b piece hmem
  cases hsp : splitFirstChar ':' piece with
  | none => simp only [hsp, Option.map_none']
  | some kv =>
      simp only [hsp, Option.map_some']
      split
      · have hlt : (trimWhile quoteSpaceCut kv.2).length < s.data.length := by
          have ha : (trimWhile quoteSpaceCut kv.2).length ≤ kv.2.length :=
            trimWhile_length_le _ _
          have hb : kv.2.length < piece.length := splitFirstChar_length_lt hsp
          have hc : piece.length ≤ (trimWhile braceCut s.data).length :=
            splitOnChar_length_le hmem
          have hd : (trimWhile braceCut s.data).length ≤ s.data.length :=
            trimWhile_length_le _ _
          omega
        rw [parseToolCallFuel_irrelevant hlt (Nat.lt_succ_self _)]
        rfl
      · rfl

/-- Witness for C8's amended form at a concrete near-JSON input whose
strict decoding fails. -/
theorem parseToolCallJSON_fallback_spec_witness :
    jsonUnmarshalObject "\x7ba: 1\x7d" = none ∧
    ParseToolCallJSON "\x7ba: 1\x7d"
      = permissiveFallbackSpec (fun v => ParseToolCallJSON (String.mk v)) "\x7ba: 1\x7d".data :=
  ⟨rfl, parseToolCallJSON_fallback_spec _ rfl⟩

end AgentFlow
